import Mathlib

/-!
# Dungeon queuing (queue.cpp): embedding and verification

The program keeps a FIFO queue of parties, a fixed pool of `n` instance
threads (`instanceHandler`), one `dispatcher` thread and the `main` thread.
All shared vectors are guarded by the mutex `mtx`.

The embedding has three parts:

* the sequential part of `main` (input validation `getValidInput`, party
  formation and queue population);
* a step relation whose atomic steps are the lock-held sections of
  `instanceHandler` and `dispatcher` and the shutdown of `main`;
* a finer step relation that splits `cv.wait` and the shutdown of `main`
  into their individual shared-memory actions.

`unsigned int` values are natural numbers reduced modulo `2 ^ 32`, `int`
values are integers.
-/

namespace DungeonQueue

/-! ## Data model -/

/-- Party record: `struct Party { int id; int duration; }`. -/
structure Party where
  id : Int
  duration : Int
deriving DecidableEq, Repr

/-- Number of values of an `unsigned int` (32 bits). -/
def UINT_RANGE : Nat := 4294967296

/-- Largest `unsigned int`, `numeric_limits<unsigned int>::max()`. -/
def UINT_MAX : Nat := 4294967295

/-- The globals of queue.cpp that the threads share (`mtx` and `cv` are
represented by the step relations below, the totals are computed by
`total_parties_served`). -/
structure Shared where
  partyQueue : List Party
  isInstanceAvailable : List Bool
  isDone : Bool
  num_parties_served : List Nat
  instance_time_served : List Nat
  instance_status : List String
deriving DecidableEq, Repr

/-- The globals after `main` has populated the queue with `q0` and resized the
four vectors to `n` entries (lines 138-141); `isDone` is still `false`. -/
def initShared (n : Nat) (q0 : List Party) : Shared :=
  { partyQueue := q0
    isInstanceAvailable := List.replicate n true
    isDone := false
    num_parties_served := List.replicate n 0
    instance_time_served := List.replicate n 0
    instance_status := List.replicate n "empty" }

/-! ## Lock-held sections of `instanceHandler` -/

/-- The predicate of `cv.wait` (line 63): `!partyQueue.empty() || isDone`. -/
def waitPredicate (g : Shared) : Bool :=
  !g.partyQueue.isEmpty || g.isDone

/-- Lines 68-72 for the party `p` read from the front, `rest` being the queue
after `pop()`: the slot `id - 1` is marked unavailable and "active", its served
counter is incremented and its served time is increased by `p.duration`, both
in `unsigned int` arithmetic. -/
def claimUpdate (id : Nat) (p : Party) (rest : List Party) (g : Shared) : Shared :=
  { g with
    partyQueue := rest
    isInstanceAvailable := g.isInstanceAvailable.set (id - 1) false
    instance_status := g.instance_status.set (id - 1) "active"
    num_parties_served :=
      g.num_parties_served.set (id - 1) ((g.num_parties_served.getD (id - 1) 0 + 1) % UINT_RANGE)
    instance_time_served :=
      g.instance_time_served.set (id - 1)
        ((((g.instance_time_served.getD (id - 1) 0 : Nat) : Int) + p.duration) % (UINT_RANGE : Int)).toNat }

/-- What the first lock-held section of an `instanceHandler` iteration does. -/
inductive Outcome where
  /-- the wait predicate is false: the thread stays in `cv.wait` -/
  | blocks
  /-- `break` at line 64 -/
  | stops
  /-- `front()` would be evaluated on an empty queue (undefined behaviour) -/
  | emptyFront
  /-- a party was taken from the queue; the globals after line 72 -/
  | claims (p : Party) (g : Shared)
deriving DecidableEq, Repr

/-- Lines 62-75 of `instanceHandler(id)`, executed while holding `mtx`. -/
def instanceHandlerLocked (id : Nat) (g : Shared) : Outcome :=
  if !waitPredicate g then Outcome.blocks
  else if g.isDone && g.partyQueue.isEmpty then Outcome.stops
  else
    match g.partyQueue with
    | [] => Outcome.emptyFront
    | p :: rest => Outcome.claims p (claimUpdate id p rest g)

/-- Lines 79-83 of `instanceHandler(id)`, executed while holding `mtx` after the
sleep: the slot is marked "empty" and available again. -/
def instanceHandlerFinish (id : Nat) (g : Shared) : Shared :=
  { g with
    instance_status := g.instance_status.set (id - 1) "empty"
    isInstanceAvailable := g.isInstanceAvailable.set (id - 1) true }

/-! ## Lock-held section of `dispatcher` -/

/-- Number of `cv.notify_one()` calls of one pass of the `for` loop of
`dispatcher(n)` (lines 93-97). The loop changes no shared variable. -/
def dispatcherNotifies (n : Nat) (g : Shared) : Nat :=
  ((List.range n).filter
    (fun i => !g.partyQueue.isEmpty && g.isInstanceAvailable.getD i false)).length

/-- Result of one iteration of `dispatcher`: leave the loop, or issue `k`
notifications. -/
inductive DispatchOutcome where
  | exits
  | notifies (k : Nat)
deriving DecidableEq, Repr

/-- Lines 90-97 of `dispatcher(n)`. -/
def dispatcherLocked (n : Nat) (g : Shared) : DispatchOutcome :=
  if g.isDone && g.partyQueue.isEmpty then DispatchOutcome.exits
  else DispatchOutcome.notifies (dispatcherNotifies n g)

/-! ## Step relation on lock-held sections -/

/-- Control point of one `instanceHandler` thread between lock-held sections. -/
inductive Pc where
  /-- at the top of the loop, in or before `cv.wait` -/
  | waiting
  /-- in `sleep_for`, holding the local copy `p` of the claimed party -/
  | processing (p : Party)
  /-- left the loop -/
  | stopped
deriving DecidableEq, Repr

/-- System state between lock-held sections. `claimed` and `completed` are
history variables: they record, in order, which thread claimed and which thread
finished which party, and are never read by a step. -/
structure State where
  g : Shared
  pc : List Pc
  dispatcherRunning : Bool
  claimed : List (Nat × Party)
  completed : List (Nat × Party)
deriving DecidableEq, Repr

/-- The state in which `main` launches the threads (lines 149-156). -/
def init (n : Nat) (q0 : List Party) : State :=
  { g := initShared n q0
    pc := List.replicate n Pc.waiting
    dispatcherRunning := true
    claimed := []
    completed := [] }

/-- Which thread runs its next atomic section. Instance threads carry the
identifiers `1, ..., n` passed by `main`. -/
inductive Event where
  | worker (id : Nat)
  | dispatcher
  | shutdown
deriving DecidableEq, Repr

/-- One atomic step for `n` instance threads; `none` when the thread cannot run
(it is blocked, has exited, does not exist, or would evaluate `front()` on an empty queue). -/
def step (n : Nat) (s : State) : Event → Option State
  | Event.worker id =>
    if 1 ≤ id ∧ id ≤ n then
      match s.pc.getD (id - 1) Pc.stopped with
      | Pc.waiting =>
        match instanceHandlerLocked id s.g with
        | Outcome.blocks => none
        | Outcome.emptyFront => none
        | Outcome.stops => some { s with pc := s.pc.set (id - 1) Pc.stopped }
        | Outcome.claims p g' =>
          some { s with
                 g := g'
                 pc := s.pc.set (id - 1) (Pc.processing p)
                 claimed := s.claimed ++ [(id, p)] }
      | Pc.processing p =>
        some { s with
               g := instanceHandlerFinish id s.g
               pc := s.pc.set (id - 1) Pc.waiting
               completed := s.completed ++ [(id, p)] }
      | Pc.stopped => none
    else none
  | Event.dispatcher =>
    if s.dispatcherRunning then
      match dispatcherLocked n s.g with
      | DispatchOutcome.exits => some { s with dispatcherRunning := false }
      | DispatchOutcome.notifies _ => some s
    else none
  | Event.shutdown =>
    if s.g.isDone then none
    else some { s with g := { s.g with isDone := true } }

/-- Run a schedule from `s`; `none` if some step of it cannot be taken. -/
def run (n : Nat) (s : State) : List Event → Option State
  | [] => some s
  | e :: es =>
    match step n s e with
    | none => none
    | some s' => run n s' es

/-- Parties currently held by processing threads, in thread order. -/
def held : List Pc → List Party
  | [] => []
  | Pc.processing p :: l => p :: held l
  | Pc.waiting :: l => held l
  | Pc.stopped :: l => held l

/-- Parties in the order they were claimed. -/
def claimOrder (s : State) : List Party := s.claimed.map Prod.snd

/-- Parties that have been finished, in completion order. -/
def finished (s : State) : List Party := s.completed.map Prod.snd

/-- Parties claimed (or finished) by thread `id` according to a history. -/
def partiesOf (id : Nat) (log : List (Nat × Party)) : List Party :=
  (log.filter (fun e => e.1 = id)).map Prod.snd

/-- Sum of the durations of a list of parties. -/
def durationSum (ps : List Party) : Int := (ps.map Party.duration).sum

/-- The party a thread at control point `c` is processing, if any. -/
def heldBy : Pc → List Party
  | Pc.processing p => [p]
  | Pc.waiting => []
  | Pc.stopped => []

/-- All instance threads have left their loop. -/
def allStopped (s : State) : Prop := ∀ c ∈ s.pc, c = Pc.stopped

/-- Number of slots whose status is "active". -/
def busyCount (g : Shared) : Nat := g.instance_status.count "active"

/-- Lines 170-173 of `main`: the running `unsigned int` sum of a vector. -/
def total_parties_served (xs : List Nat) : Nat :=
  xs.foldl (fun acc x => (acc + x) % UINT_RANGE) 0

/-- The status string that lines 70 and 80 give the slot of a thread at control
point `c`. -/
def statusOf : Pc → String
  | Pc.processing _ => "active"
  | Pc.waiting => "empty"
  | Pc.stopped => "empty"

/-- The availability flag that lines 69 and 81 give the slot of a thread at
control point `c`. -/
def availOf : Pc → Bool
  | Pc.processing _ => false
  | Pc.waiting => true
  | Pc.stopped => true

/-- The facts that hold in every state reachable from `init n q0`. -/
structure Inv (n : Nat) (q0 : List Party) (s : State) : Prop where
  len : s.pc.length = n
  status : s.g.instance_status = s.pc.map statusOf
  avail : s.g.isInstanceAvailable = s.pc.map availOf
  served : s.g.num_parties_served =
    (List.range n).map (fun i => (partiesOf (i + 1) s.claimed).length % UINT_RANGE)
  time : s.g.instance_time_served =
    (List.range n).map
      (fun i => (durationSum (partiesOf (i + 1) s.claimed) % (UINT_RANGE : Int)).toNat)
  fifo : q0 = claimOrder s ++ s.g.partyQueue
  perm : List.Perm (claimOrder s) (finished s ++ held s.pc)
  slot : ∀ i, i < n →
    partiesOf (i + 1) s.claimed = partiesOf (i + 1) s.completed ++ heldBy (s.pc.getD i Pc.stopped)
  ids : ∀ e ∈ s.claimed, 1 ≤ e.1 ∧ e.1 ≤ n
  stop : Pc.stopped ∈ s.pc → s.g.isDone = true ∧ s.g.partyQueue = []

/-! ## Concrete executions -/

/-- Two parties: id 1 with duration 2, id 2 with duration 1. -/
def scenarioQueue : List Party := [⟨1, 2⟩, ⟨2, 1⟩]

/-- Two parties of duration 1 each. -/
def unitQueue : List Party := [⟨1, 1⟩, ⟨2, 1⟩]

/-- Two threads, `scenarioQueue`: thread 1 claimed and finished party 1, thread 2
is processing party 2. -/
def stateOneFinished : State :=
  { g := { partyQueue := []
           isInstanceAvailable := [true, false]
           isDone := false
           num_parties_served := [1, 1]
           instance_time_served := [2, 1]
           instance_status := ["empty", "active"] }
    pc := [Pc.waiting, Pc.processing ⟨2, 1⟩]
    dispatcherRunning := true
    claimed := [(1, ⟨1, 2⟩), (2, ⟨2, 1⟩)]
    completed := [(1, ⟨1, 2⟩)] }

/-- Two threads, `scenarioQueue`: thread 2 claimed first, then thread 1. -/
def stateBothBusy : State :=
  { g := { partyQueue := []
           isInstanceAvailable := [false, false]
           isDone := false
           num_parties_served := [1, 1]
           instance_time_served := [1, 2]
           instance_status := ["active", "active"] }
    pc := [Pc.processing ⟨2, 1⟩, Pc.processing ⟨1, 2⟩]
    dispatcherRunning := true
    claimed := [(2, ⟨1, 2⟩), (1, ⟨2, 1⟩)]
    completed := [] }

/-- Schedule in which `main` sets `isDone` before any claim and both threads
then claim, finish and stop. -/
def scenarioSchedule : List Event :=
  [Event.shutdown, Event.worker 1, Event.worker 2, Event.worker 1, Event.worker 2,
   Event.worker 1, Event.worker 2]

/-- Final state of `scenarioSchedule` on two threads and `scenarioQueue`. -/
def scenarioFinal : State :=
  { g := { partyQueue := []
           isInstanceAvailable := [true, true]
           isDone := true
           num_parties_served := [1, 1]
           instance_time_served := [2, 1]
           instance_status := ["empty", "empty"] }
    pc := [Pc.stopped, Pc.stopped]
    dispatcherRunning := true
    claimed := [(1, ⟨1, 2⟩), (2, ⟨2, 1⟩)]
    completed := [(1, ⟨1, 2⟩), (2, ⟨2, 1⟩)] }

/-- One thread, one party of duration 2, right after the claim. -/
def stateJustClaimed : State :=
  { g := { partyQueue := []
           isInstanceAvailable := [false]
           isDone := false
           num_parties_served := [1]
           instance_time_served := [2]
           instance_status := ["active"] }
    pc := [Pc.processing ⟨1, 2⟩]
    dispatcherRunning := true
    claimed := [(1, ⟨1, 2⟩)]
    completed := [] }

/-- One thread, `unitQueue`, right after the first claim. -/
def stateUnitBusy : State :=
  { g := { partyQueue := [⟨2, 1⟩]
           isInstanceAvailable := [false]
           isDone := false
           num_parties_served := [1]
           instance_time_served := [1]
           instance_status := ["active"] }
    pc := [Pc.processing ⟨1, 1⟩]
    dispatcherRunning := true
    claimed := [(1, ⟨1, 1⟩)]
    completed := [] }

/-- One thread, `unitQueue`, after the first party has been finished. -/
def stateUnitIdle : State :=
  { g := { partyQueue := [⟨2, 1⟩]
           isInstanceAvailable := [true]
           isDone := false
           num_parties_served := [1]
           instance_time_served := [1]
           instance_status := ["empty"] }
    pc := [Pc.waiting]
    dispatcherRunning := true
    claimed := [(1, ⟨1, 1⟩)]
    completed := [(1, ⟨1, 1⟩)] }

/-- Two threads, `scenarioQueue`: thread 1 claimed party 1, then `main` set
`isDone`; party 2 is still queued. -/
def stateDoneWithWork : State :=
  { g := { partyQueue := [⟨2, 1⟩]
           isInstanceAvailable := [false, true]
           isDone := true
           num_parties_served := [1, 0]
           instance_time_served := [2, 0]
           instance_status := ["active", "empty"] }
    pc := [Pc.processing ⟨1, 2⟩, Pc.waiting]
    dispatcherRunning := true
    claimed := [(1, ⟨1, 2⟩)]
    completed := [] }

/-- Two threads, empty queue, `isDone` set, thread 1 has stopped. -/
def stateEmptyDone : State :=
  { g := { partyQueue := []
           isInstanceAvailable := [true, true]
           isDone := true
           num_parties_served := [0, 0]
           instance_time_served := [0, 0]
           instance_status := ["empty", "empty"] }
    pc := [Pc.stopped, Pc.waiting]
    dispatcherRunning := true
    claimed := []
    completed := [] }

/-! ## Sequential part of `main`: input validation -/

/-- Smallest `int`. -/
def INT_MIN : Int := -2147483648

/-- Largest `int`. -/
def INT_MAX : Int := 2147483647

/-- A whitespace-delimited word of standard input as `ss >> tempValue` followed
by `ss.eof()` sees it: either the text of an integer `z` (of any size) with
nothing after it, or anything else. -/
inductive Token where
  | garbage
  | lit (z : Int)
deriving DecidableEq, Repr

/-- Standard input: words separated by blanks, and line ends. -/
inductive Item where
  | tok (t : Token)
  | newline
deriving DecidableEq, Repr

/-- Line 42: the extraction into the `int` `tempValue` succeeds, with the
whole word consumed, only for an integer text whose value fits an `int`. -/
def extractInt : Token → Option Int
  | Token.garbage => none
  | Token.lit z => if INT_MIN ≤ z ∧ z ≤ INT_MAX then some z else none

/-- Line 45, `cin.ignore(max, '\n')`: discard the rest of the current line. -/
def ignoreLine : List Item → List Item
  | [] => []
  | Item.newline :: r => r
  | Item.tok _ :: r => ignoreLine r

/-- The conversion `(unsigned int)tempValue`. -/
def toUnsigned (v : Int) : Nat := (v % (UINT_RANGE : Int)).toNat

/-- Lines 31-57, `getValidInput(prompt, minValue, maxValue)` reading from the
given input: the returned value and the input left, or `none` when the input
runs out before a word is accepted (the loop then never returns). -/
def getValidInput (minValue maxValue : Nat) : List Item → Option (Nat × List Item)
  | [] => none
  | Item.newline :: r => getValidInput minValue maxValue r
  | Item.tok t :: r =>
    match extractInt t with
    | none => getValidInput minValue maxValue (ignoreLine r)
    | some tempValue =>
      if tempValue < 0 ∨ toUnsigned tempValue < minValue ∨ toUnsigned tempValue > maxValue then
        getValidInput minValue maxValue r
      else some (toUnsigned tempValue, r)
termination_by l => l.length
decreasing_by
  · simp
  · have key : ∀ l : List Item, (ignoreLine l).length ≤ l.length := by
      intro l
      induction l with
      | nil => simp [ignoreLine]
      | cons a l ih =>
        cases a with
        | tok t => simp only [ignoreLine, List.length_cons]; omega
        | newline => simp [ignoreLine]
    have := key r
    simp only [List.length_cons]
    omega
  · simp

/-- The values `main` reads at lines 104-117. -/
structure Config where
  n : Nat
  t : Nat
  h : Nat
  d : Nat
  t1 : Nat
  t2 : Nat
deriving DecidableEq, Repr

/-- The `do ... while (t1 > t2)` loop of lines 111-117, at most `fuel` rounds. -/
def readTimes : Nat → List Item → Option ((Nat × Nat) × List Item)
  | 0, _ => none
  | fuel + 1, input =>
    match getValidInput 1 UINT_MAX input with
    | none => none
    | some (t1, r1) =>
      match getValidInput t1 UINT_MAX r1 with
      | none => none
      | some (t2, r2) =>
        if t1 > t2 then readTimes fuel r2 else some ((t1, t2), r2)

/-- Lines 104-117 of `main`. Every round of the loop consumes input, so
`input.length + 1` rounds are never exhausted. -/
def readConfig (input : List Item) : Option (Config × List Item) :=
  match getValidInput 1 UINT_MAX input with
  | none => none
  | some (n, r1) =>
    match getValidInput 1 UINT_MAX r1 with
    | none => none
    | some (t, r2) =>
      match getValidInput 1 UINT_MAX r2 with
      | none => none
      | some (h, r3) =>
        match getValidInput 1 UINT_MAX r3 with
        | none => none
        | some (d, r4) =>
          match readTimes (r4.length + 1) r4 with
          | none => none
          | some ((t1, t2), r5) =>
            some ({ n := n, t := t, h := h, d := d, t1 := t1, t2 := t2 }, r5)

/-! ## Sequential part of `main`: party formation -/

/-- The four `unsigned int` values computed at lines 122-125. -/
structure Formation where
  max_parties : Nat
  unmatched_tanks : Nat
  unmatched_healers : Nat
  unmatched_dps : Nat
deriving DecidableEq, Repr

/-- Subtraction of `unsigned int` values. -/
def usub (a b : Nat) : Nat := (a + UINT_RANGE - b % UINT_RANGE) % UINT_RANGE

/-- Multiplication of `unsigned int` values. -/
def umul (a b : Nat) : Nat := (a * b) % UINT_RANGE

/-- Lines 122-125 of `main`. -/
def formParties (t h d : Nat) : Formation :=
  let max_parties := min t (min h (d / 3))
  { max_parties := max_parties
    unmatched_tanks := usub t max_parties
    unmatched_healers := usub h max_parties
    unmatched_dps := usub d (umul max_parties 3) }

/-- The loop of lines 133-135 from counter value `i` on, with `q` the queue so
far; `dis j` is the duration drawn for the round with counter `j`. The counter
is a non-negative `int` compared with the `unsigned int` bound. -/
def populateFrom (max_parties : Nat) (dis : Nat → Int) (i : Nat) (q : List Party) : List Party :=
  if i < max_parties then
    populateFrom max_parties dis (i + 1) (q ++ [{ id := (i : Int) + 1, duration := dis i }])
  else q
termination_by max_parties - i

/-- Lines 133-135: the queue `main` builds. -/
def populate (max_parties : Nat) (dis : Nat → Int) : List Party :=
  populateFrom max_parties dis 0 []

/-- The state in which `main` launches the threads, from the values read. -/
def mainInit (n t h d : Nat) (dis : Nat → Int) : State :=
  init n (populate (formParties t h d).max_parties dis)

/-! ## Finer step relation: `mtx`, `cv` and the unlocked write of `main`

`cv.wait(lock, pred)` is `while (!pred()) wait(lock);`: the predicate is
evaluated while holding `mtx`, and `wait(lock)` releases `mtx` and blocks in one
action. `main` writes `isDone` (line 160) and calls `notify_all` (line 161)
without ever locking `mtx`, so both actions can fall between any two actions of
a thread that holds `mtx`. -/

/-- A thread that can own `mtx`. -/
inductive Owner where
  | worker (id : Nat)
  | dispatcher
deriving DecidableEq, Repr

/-- Control point of an `instanceHandler` thread in the finer relation. -/
inductive WaitPc where
  /-- line 62: about to lock `mtx` -/
  | acquire
  /-- line 63: holds `mtx`, about to evaluate the wait predicate -/
  | testing
  /-- line 63: holds `mtx`, found the predicate false, about to call `wait(lock)` -/
  | parking
  /-- line 63: blocked on `cv`, `mtx` released -/
  | blocked
  /-- line 63: notified, about to lock `mtx` again and re-evaluate the predicate -/
  | woken
  /-- line 64: holds `mtx`, found the predicate true -/
  | passed
  /-- line 77: in `sleep_for`, `mtx` released -/
  | sleeping (p : Party)
  /-- lines 80-83: holds `mtx` again after the sleep -/
  | finishing (p : Party)
  /-- left the loop -/
  | stopped
deriving DecidableEq, Repr

/-- Control point of the `dispatcher` thread. -/
inductive DispatcherPc where
  /-- line 90: about to lock `mtx` -/
  | acquire
  /-- lines 91-97: holds `mtx` -/
  | locked
  /-- left the loop -/
  | exited
deriving DecidableEq, Repr

/-- Control point of `main` after the threads have been launched. -/
inductive MainPc where
  /-- line 159: in `sleep_for`, before the write of `isDone` -/
  | sleeping
  /-- between line 160 and line 161 -/
  | notifying
  /-- lines 164-167: waiting in `join` -/
  | joining
deriving DecidableEq, Repr

/-- State of the finer relation. -/
structure FineState where
  g : Shared
  mtx : Option Owner
  wpc : List WaitPc
  dpc : DispatcherPc
  mpc : MainPc
deriving DecidableEq, Repr

/-- The state in which `main` has launched all threads. -/
def fineInit (n : Nat) (q0 : List Party) : FineState :=
  { g := initShared n q0
    mtx := none
    wpc := List.replicate n WaitPc.acquire
    dpc := DispatcherPc.acquire
    mpc := MainPc.sleeping }

/-- Effect of `cv.notify_all()` on the threads: every blocked thread is woken. -/
def notifyAll (l : List WaitPc) : List WaitPc :=
  l.map (fun c => if c = WaitPc.blocked then WaitPc.woken else c)

/-- Effect of one `cv.notify_one()`: one blocked thread, if there is any, is
woken (here the one with the smallest identifier). -/
def notifyOne : List WaitPc → List WaitPc
  | [] => []
  | WaitPc.blocked :: l => WaitPc.woken :: l
  | c :: l => c :: notifyOne l

/-- Effect of `k` calls of `cv.notify_one()`. -/
def notifyMany : Nat → List WaitPc → List WaitPc
  | 0, l => l
  | k + 1, l => notifyMany k (notifyOne l)

/-- One action of the finer relation for `n` instance threads; `Event.shutdown`
is the next action of `main`. `none` when the chosen thread cannot act. -/
def fineStep (n : Nat) (s : FineState) : Event → Option FineState
  | Event.worker id =>
    if 1 ≤ id ∧ id ≤ n then
      match s.wpc.getD (id - 1) WaitPc.stopped with
      | WaitPc.acquire =>
        if s.mtx = none then
          some { s with mtx := some (Owner.worker id), wpc := s.wpc.set (id - 1) WaitPc.testing }
        else none
      | WaitPc.testing =>
        if waitPredicate s.g then some { s with wpc := s.wpc.set (id - 1) WaitPc.passed }
        else some { s with wpc := s.wpc.set (id - 1) WaitPc.parking }
      | WaitPc.parking =>
        some { s with mtx := none, wpc := s.wpc.set (id - 1) WaitPc.blocked }
      | WaitPc.blocked => none
      | WaitPc.woken =>
        if s.mtx = none then
          some { s with mtx := some (Owner.worker id), wpc := s.wpc.set (id - 1) WaitPc.testing }
        else none
      | WaitPc.passed =>
        if s.g.isDone && s.g.partyQueue.isEmpty then
          some { s with mtx := none, wpc := s.wpc.set (id - 1) WaitPc.stopped }
        else
          match s.g.partyQueue with
          | [] => none
          | p :: rest =>
            some { s with
                   g := claimUpdate id p rest s.g
                   mtx := none
                   wpc := s.wpc.set (id - 1) (WaitPc.sleeping p) }
      | WaitPc.sleeping p =>
        if s.mtx = none then
          some { s with
                 mtx := some (Owner.worker id)
                 wpc := s.wpc.set (id - 1) (WaitPc.finishing p) }
        else none
      | WaitPc.finishing _ =>
        some { s with
               g := instanceHandlerFinish id s.g
               mtx := none
               wpc := s.wpc.set (id - 1) WaitPc.acquire }
      | WaitPc.stopped => none
    else none
  | Event.dispatcher =>
    match s.dpc with
    | DispatcherPc.acquire =>
      if s.mtx = none then
        some { s with mtx := some Owner.dispatcher, dpc := DispatcherPc.locked }
      else none
    | DispatcherPc.locked =>
      match dispatcherLocked n s.g with
      | DispatchOutcome.exits => some { s with mtx := none, dpc := DispatcherPc.exited }
      | DispatchOutcome.notifies k =>
        some { s with mtx := none, wpc := notifyMany k s.wpc, dpc := DispatcherPc.acquire }
    | DispatcherPc.exited => none
  | Event.shutdown =>
    match s.mpc with
    | MainPc.sleeping =>
      some { s with g := { s.g with isDone := true }, mpc := MainPc.notifying }
    | MainPc.notifying => some { s with wpc := notifyAll s.wpc, mpc := MainPc.joining }
    | MainPc.joining => none

/-- Run a schedule of the finer relation. -/
def fineRun (n : Nat) (s : FineState) : List Event → Option FineState
  | [] => some s
  | e :: es =>
    match fineStep n s e with
    | none => none
    | some s' => fineRun n s' es

/-- One instance thread, empty queue: the thread evaluates the wait predicate
(false), `main` then writes `isDone` and calls `notify_all`, and only then does
the thread block; finally the dispatcher sees `isDone` and leaves. -/
def lostWakeupSchedule : List Event :=
  [Event.worker 1, Event.worker 1, Event.shutdown, Event.shutdown, Event.worker 1,
   Event.dispatcher, Event.dispatcher]

/-- The state `lostWakeupSchedule` leads to. -/
def lostWakeupState : FineState :=
  { g := { partyQueue := []
           isInstanceAvailable := [true]
           isDone := true
           num_parties_served := [0]
           instance_time_served := [0]
           instance_status := ["empty"] }
    mtx := none
    wpc := [WaitPc.blocked]
    dpc := DispatcherPc.exited
    mpc := MainPc.joining }

/-! ## Concrete inputs -/

/-- Sample standard input: a non-numeric word (its line is discarded), `0`
(below the minimum 1), then 2 instances, 5 tanks, 4 healers, 10 DPS, minimum
time 3, `1` (below the minimum time) and maximum time 4. -/
def sampleInput : List Item :=
  [Item.tok Token.garbage, Item.tok (Token.lit 7), Item.newline,
   Item.tok (Token.lit 0), Item.tok (Token.lit 2), Item.newline,
   Item.tok (Token.lit 5), Item.newline,
   Item.tok (Token.lit 4), Item.newline,
   Item.tok (Token.lit 10), Item.newline,
   Item.tok (Token.lit 3), Item.newline,
   Item.tok (Token.lit 1), Item.newline,
   Item.tok (Token.lit 4), Item.newline]

/-- What is left of `sampleInput` after the number of instances has been read. -/
def sampleRest : List Item :=
  [Item.newline,
   Item.tok (Token.lit 5), Item.newline,
   Item.tok (Token.lit 4), Item.newline,
   Item.tok (Token.lit 10), Item.newline,
   Item.tok (Token.lit 3), Item.newline,
   Item.tok (Token.lit 1), Item.newline,
   Item.tok (Token.lit 4), Item.newline]

/-- The configuration read from `sampleInput`. -/
def sampleConfig : Config := { n := 2, t := 5, h := 4, d := 10, t1 := 3, t2 := 4 }

/-- Durations drawn for the parties in the examples: all 1. -/
def unitDurations : Nat → Int := fun _ => 1

/-! ## List facts used by the invariant -/

theorem getD_set_self {α : Type} (l : List α) (k : Nat) (a d : α) (h : k < l.length) :
    (l.set k a).getD k d = a := by
  simp [List.getD_eq_getElem?_getD, List.getElem?_set, h]

theorem getD_set_other {α : Type} (l : List α) (k i : Nat) (a d : α) (h : i ≠ k) :
    (l.set k a).getD i d = l.getD i d := by
  simp [List.getD_eq_getElem?_getD, List.getElem?_set, Ne.symm h]

theorem getD_map_range {α : Type} (f : Nat → α) (n k : Nat) (d : α) (h : k < n) :
    ((List.range n).map f).getD k d = f k := by
  simp [List.getD_eq_getElem?_getD, List.getElem?_range h]

theorem set_map_range {α : Type} (f f' : Nat → α) (n k : Nat) (v : α) (hk : k < n)
    (hv : v = f' k) (h : ∀ i, i ≠ k → f' i = f i) :
    ((List.range n).map f).set k v = (List.range n).map f' := by
  apply List.ext_getElem?
  intro i
  by_cases hi : i < n
  · by_cases hik : k = i
    · subst hik
      simp [List.getElem?_set, List.getElem?_range hi, hi, hv]
    · simp [List.getElem?_set, List.getElem?_range hi, hik, h i (Ne.symm hik)]
  · have h1 : ¬ i < (List.range n).length := by simpa using hi
    by_cases hik : k = i
    · omega
    · have h2 : (List.range n)[i]? = none := List.getElem?_eq_none (by simpa using hi)
      simp [List.getElem?_set, hik, h2]

theorem set_same {α : Type} (l : List α) (k : Nat) (a d : α) (h : l.getD k d = a)
    (hk : k < l.length) : l.set k a = l := by
  apply List.ext_getElem?
  intro i
  by_cases hik : k = i
  · subst hik
    simp [List.getD_eq_getElem?_getD, List.getElem?_eq_getElem hk] at h
    simp [List.getElem?_set, hk, List.getElem?_eq_getElem hk, h]
  · simp [List.getElem?_set, hik]

theorem held_set_processing (l : List Pc) (k : Nat) (p : Party)
    (h : l.getD k Pc.stopped = Pc.waiting) :
    List.Perm (held (l.set k (Pc.processing p))) (p :: held l) := by
  induction l generalizing k with
  | nil => simp at h
  | cons c l ih =>
    cases k with
    | zero =>
      simp at h
      subst h
      simp [held]
    | succ k =>
      rw [List.getD_cons_succ] at h
      have := ih k h
      cases c with
      | waiting => simpa [held] using this
      | stopped => simpa [held] using this
      | processing q =>
        simp only [List.set_cons_succ, held]
        exact (List.Perm.cons q this).trans (List.Perm.swap p q _)

theorem held_set_waiting (l : List Pc) (k : Nat) (p : Party)
    (h : l.getD k Pc.stopped = Pc.processing p) :
    List.Perm (held l) (p :: held (l.set k Pc.waiting)) := by
  induction l generalizing k with
  | nil => simp at h
  | cons c l ih =>
    cases k with
    | zero =>
      simp at h
      subst h
      simp [held]
    | succ k =>
      rw [List.getD_cons_succ] at h
      have := ih k h
      cases c with
      | waiting => simpa [held] using this
      | stopped => simpa [held] using this
      | processing q =>
        simp only [List.set_cons_succ, held]
        exact (List.Perm.cons q this).trans (List.Perm.swap p q _)

theorem held_set_stopped (l : List Pc) (k : Nat)
    (h : l.getD k Pc.stopped = Pc.waiting) :
    held (l.set k Pc.stopped) = held l := by
  induction l generalizing k with
  | nil => simp
  | cons c l ih =>
    cases k with
    | zero =>
      simp at h
      subst h
      simp [held]
    | succ k =>
      rw [List.getD_cons_succ] at h
      have := ih k h
      cases c <;> simp [held, this]

theorem partiesOf_append (i id : Nat) (p : Party) (log : List (Nat × Party)) :
    partiesOf i (log ++ [(id, p)]) = partiesOf i log ++ (if id = i then [p] else []) := by
  by_cases h : id = i <;> simp [partiesOf, List.filter_append, List.filter_cons, h]

theorem durationSum_append (l : List Party) (p : Party) :
    durationSum (l ++ [p]) = durationSum l + p.duration := by
  simp [durationSum]

/-! ## The steps, case by case -/

theorem instanceHandlerLocked_stops (id : Nat) (g : Shared)
    (h : instanceHandlerLocked id g = Outcome.stops) :
    g.isDone = true ∧ g.partyQueue = [] := by
  unfold instanceHandlerLocked waitPredicate at h
  cases hq : g.partyQueue with
  | nil => cases hd : g.isDone <;> simp [hq, hd] at h ⊢
  | cons p rest => cases hd : g.isDone <;> simp [hq, hd] at h

theorem instanceHandlerLocked_claims (id : Nat) (g g' : Shared) (p : Party)
    (h : instanceHandlerLocked id g = Outcome.claims p g') :
    ∃ rest, g.partyQueue = p :: rest ∧ g' = claimUpdate id p rest g := by
  unfold instanceHandlerLocked waitPredicate at h
  cases hq : g.partyQueue with
  | nil => cases hd : g.isDone <;> simp [hq, hd] at h
  | cons q rest =>
    cases hd : g.isDone <;> simp [hq, hd] at h <;>
      (obtain ⟨h1, h2⟩ := h; subst h1; exact ⟨rest, rfl, h2.symm⟩)

theorem step_cases (n : Nat) (s s' : State) (e : Event) (h : step n s e = some s') :
    (∃ id, e = Event.worker id ∧ 1 ≤ id ∧ id ≤ n ∧ s.pc.getD (id - 1) Pc.stopped = Pc.waiting ∧
        s.g.isDone = true ∧ s.g.partyQueue = [] ∧
        s' = { s with pc := s.pc.set (id - 1) Pc.stopped }) ∨
    (∃ id p rest, e = Event.worker id ∧ 1 ≤ id ∧ id ≤ n ∧
        s.pc.getD (id - 1) Pc.stopped = Pc.waiting ∧ s.g.partyQueue = p :: rest ∧
        s' = { s with
               g := claimUpdate id p rest s.g
               pc := s.pc.set (id - 1) (Pc.processing p)
               claimed := s.claimed ++ [(id, p)] }) ∨
    (∃ id p, e = Event.worker id ∧ 1 ≤ id ∧ id ≤ n ∧
        s.pc.getD (id - 1) Pc.stopped = Pc.processing p ∧
        s' = { s with
               g := instanceHandlerFinish id s.g
               pc := s.pc.set (id - 1) Pc.waiting
               completed := s.completed ++ [(id, p)] }) ∨
    (e = Event.dispatcher ∧ s'.g = s.g ∧ s'.pc = s.pc ∧ s'.claimed = s.claimed ∧
        s'.completed = s.completed) ∨
    (e = Event.shutdown ∧ s.g.isDone = false ∧
        s' = { s with g := { s.g with isDone := true } }) := by
  cases e with
  | worker id =>
    simp only [step] at h
    split at h
    · rename_i hid
      split at h
      · rename_i hpc
        split at h
        · simp at h
        · simp at h
        · rename_i hout
          have := instanceHandlerLocked_stops id s.g hout
          left
          exact ⟨id, rfl, hid.1, hid.2, hpc, this.1, this.2, (Option.some.inj h).symm⟩
        · rename_i p g' hout
          obtain ⟨rest, hq, hg⟩ := instanceHandlerLocked_claims id s.g g' p hout
          right; left
          subst hg
          exact ⟨id, p, rest, rfl, hid.1, hid.2, hpc, hq, (Option.some.inj h).symm⟩
      · rename_i p hpc
        right; right; left
        exact ⟨id, p, rfl, hid.1, hid.2, hpc, (Option.some.inj h).symm⟩
      · simp at h
    · simp at h
  | dispatcher =>
    simp only [step] at h
    right; right; right; left
    split at h
    · split at h
      · cases h; simp
      · cases h; simp
    · simp at h
  | shutdown =>
    simp only [step] at h
    right; right; right; right
    split at h
    · simp at h
    · rename_i hd
      exact ⟨rfl, by simpa using hd, (Option.some.inj h).symm⟩

/-! ## The invariant holds initially and is preserved -/

theorem inv_init (n : Nat) (q0 : List Party) : Inv n q0 (init n q0) where
  len := by simp [init]
  status := by simp [init, initShared, statusOf]
  avail := by simp [init, initShared, availOf]
  served := by
    apply List.ext_getElem?
    intro i
    by_cases hi : i < n
    · simp [init, initShared, partiesOf, List.getElem?_replicate, hi, List.getElem?_range hi]
    · have h2 : (List.range n)[i]? = none := List.getElem?_eq_none (by simpa using hi)
      simp [init, initShared, List.getElem?_replicate, hi, h2]
  time := by
    apply List.ext_getElem?
    intro i
    by_cases hi : i < n
    · simp [init, initShared, partiesOf, durationSum, List.getElem?_replicate, hi,
        List.getElem?_range hi]
    · have h2 : (List.range n)[i]? = none := List.getElem?_eq_none (by simpa using hi)
      simp [init, initShared, List.getElem?_replicate, hi, h2]
  fifo := by simp [init, initShared, claimOrder]
  perm := by
    have : held (List.replicate n Pc.waiting) = [] := by
      induction n with
      | zero => rfl
      | succ m ih => simpa [List.replicate_succ, held] using ih
    simp [init, claimOrder, finished, this]
  slot := by
    intro i hi
    simp [init, partiesOf, List.getD_eq_getElem?_getD, List.getElem?_replicate, hi, heldBy]
  ids := by simp [init]
  stop := by
    intro h
    simp [init, List.mem_replicate] at h

theorem inv_stop (n : Nat) (q0 : List Party) (s : State) (id : Nat) (hI : Inv n q0 s)
    (h1 : 1 ≤ id) (h2 : id ≤ n) (hpc : s.pc.getD (id - 1) Pc.stopped = Pc.waiting)
    (hd : s.g.isDone = true) (hq : s.g.partyQueue = []) :
    Inv n q0 { s with pc := s.pc.set (id - 1) Pc.stopped } where
  len := by simp [hI.len]
  status := by
    have hk : id - 1 < (s.pc.map statusOf).length := by simp [hI.len]; omega
    have : (s.pc.map statusOf).set (id - 1) (statusOf Pc.stopped) = s.pc.map statusOf :=
      set_same _ _ _ "" (by
        have hk2 : id - 1 < s.pc.length := by simpa using hk
        simp [List.getD_eq_getElem?_getD, List.getElem?_eq_getElem hk2] at hpc ⊢
        simp [hpc, statusOf]) hk
    simp only [List.map_set, this]
    exact hI.status
  avail := by
    have hk : id - 1 < (s.pc.map availOf).length := by simp [hI.len]; omega
    have : (s.pc.map availOf).set (id - 1) (availOf Pc.stopped) = s.pc.map availOf :=
      set_same _ _ _ false (by
        have hk2 : id - 1 < s.pc.length := by simpa using hk
        simp [List.getD_eq_getElem?_getD, List.getElem?_eq_getElem hk2] at hpc ⊢
        simp [hpc, availOf]) hk
    simp only [List.map_set, this]
    exact hI.avail
  served := hI.served
  time := hI.time
  fifo := hI.fifo
  perm := by
    simp only [held_set_stopped s.pc (id - 1) hpc]
    exact hI.perm
  slot := by
    intro i hi
    have := hI.slot i hi
    by_cases hik : i = id - 1
    · subst hik
      rw [hpc] at this
      simp only [getD_set_self s.pc (id - 1) Pc.stopped Pc.stopped (by rw [hI.len]; omega)]
      simpa [heldBy] using this
    · simp only [getD_set_other s.pc (id - 1) i Pc.stopped Pc.stopped hik]
      exact this
  ids := hI.ids
  stop := fun _ => ⟨hd, hq⟩

theorem inv_claim (n : Nat) (q0 : List Party) (s : State) (id : Nat) (p : Party)
    (rest : List Party) (hI : Inv n q0 s)
    (h1 : 1 ≤ id) (h2 : id ≤ n) (hpc : s.pc.getD (id - 1) Pc.stopped = Pc.waiting)
    (hq : s.g.partyQueue = p :: rest) :
    Inv n q0 { s with
               g := claimUpdate id p rest s.g
               pc := s.pc.set (id - 1) (Pc.processing p)
               claimed := s.claimed ++ [(id, p)] } where
  len := by simp [hI.len]
  status := by
    simp only [claimUpdate, List.map_set, statusOf]
    rw [hI.status]
  avail := by
    simp only [claimUpdate, List.map_set, availOf]
    rw [hI.avail]
  served := by
    have hk : id - 1 < n := by omega
    simp only [claimUpdate]
    rw [hI.served, getD_map_range _ n (id - 1) 0 hk]
    apply set_map_range _ _ n (id - 1) _ hk
    · have e : id - 1 + 1 = id := by omega
      simp only [e, partiesOf_append, if_true, List.length_append, List.length_singleton,
        UINT_RANGE]
      omega
    · intro i hi
      have e : ¬ id = i + 1 := by omega
      simp [partiesOf_append, e]
  time := by
    have hk : id - 1 < n := by omega
    simp only [claimUpdate]
    rw [hI.time, getD_map_range _ n (id - 1) 0 hk]
    apply set_map_range _ _ n (id - 1) _ hk
    · have e : id - 1 + 1 = id := by omega
      simp only [e, partiesOf_append, if_true, durationSum_append, UINT_RANGE]
      congr 1
      have hnn : 0 ≤ durationSum (partiesOf id s.claimed) % ((4294967296 : Nat) : Int) :=
        Int.emod_nonneg _ (by decide)
      rw [Int.toNat_of_nonneg hnn]
      omega
    · intro i hi
      have e : ¬ id = i + 1 := by omega
      simp [partiesOf_append, e]
  fifo := by
    have := hI.fifo
    simp only [claimOrder, claimUpdate, List.map_append, List.map_cons, List.map_nil,
      List.append_assoc, List.singleton_append] at this ⊢
    rw [this, hq]
  perm := by
    have hp := hI.perm
    have hh := held_set_processing s.pc (id - 1) p hpc
    simp only [claimOrder, finished, List.map_append, List.map_cons, List.map_nil] at hp ⊢
    refine (List.perm_append_comm.trans ?_)
    refine ((List.Perm.cons p hp).trans ?_)
    refine (List.perm_middle.symm.trans ?_)
    exact List.Perm.append_left _ hh.symm
  slot := by
    intro i hi
    have := hI.slot i hi
    by_cases hik : i = id - 1
    · subst hik
      have e : id - 1 + 1 = id := by omega
      rw [hpc] at this
      simp only [getD_set_self s.pc (id - 1) _ Pc.stopped (by rw [hI.len]; omega),
        partiesOf_append, e, if_true, heldBy] at this ⊢
      rw [this]
      simp [heldBy]
    · have e : ¬ id = i + 1 := by omega
      simp only [getD_set_other s.pc (id - 1) i _ Pc.stopped hik, partiesOf_append, e,
        if_false, List.append_nil]
      exact this
  ids := by
    intro e he
    simp only [List.mem_append, List.mem_singleton] at he
    rcases he with he | he
    · exact hI.ids e he
    · subst he
      exact ⟨h1, h2⟩
  stop := by
    intro h
    have hmem : Pc.stopped ∈ s.pc := by
      rcases List.mem_or_eq_of_mem_set h with h | h
      · exact h
      · cases h
    have := (hI.stop hmem).2
    rw [hq] at this
    cases this

theorem inv_finish (n : Nat) (q0 : List Party) (s : State) (id : Nat) (p : Party)
    (hI : Inv n q0 s)
    (h1 : 1 ≤ id) (h2 : id ≤ n) (hpc : s.pc.getD (id - 1) Pc.stopped = Pc.processing p) :
    Inv n q0 { s with
               g := instanceHandlerFinish id s.g
               pc := s.pc.set (id - 1) Pc.waiting
               completed := s.completed ++ [(id, p)] } where
  len := by simp [hI.len]
  status := by
    simp only [instanceHandlerFinish, List.map_set, statusOf]
    rw [hI.status]
  avail := by
    simp only [instanceHandlerFinish, List.map_set, availOf]
    rw [hI.avail]
  served := hI.served
  time := hI.time
  fifo := hI.fifo
  perm := by
    have hp := hI.perm
    have hh := held_set_waiting s.pc (id - 1) p hpc
    simp only [claimOrder, finished, List.map_append, List.map_cons, List.map_nil] at hp ⊢
    refine hp.trans ?_
    refine (List.Perm.append_left _ hh).trans ?_
    simp
  slot := by
    intro i hi
    have := hI.slot i hi
    by_cases hik : i = id - 1
    · subst hik
      have e : id - 1 + 1 = id := by omega
      rw [hpc] at this
      simp only [getD_set_self s.pc (id - 1) _ Pc.stopped (by rw [hI.len]; omega),
        partiesOf_append, e, if_true, heldBy] at this ⊢
      rw [this]
      simp
    · have e : ¬ id = i + 1 := by omega
      simp only [getD_set_other s.pc (id - 1) i _ Pc.stopped hik, partiesOf_append, e,
        if_false, List.append_nil]
      exact this
  ids := hI.ids
  stop := by
    intro h
    have hmem : Pc.stopped ∈ s.pc := by
      rcases List.mem_or_eq_of_mem_set h with h | h
      · exact h
      · cases h
    exact hI.stop hmem

theorem inv_shutdown (n : Nat) (q0 : List Party) (s : State) (hI : Inv n q0 s) :
    Inv n q0 { s with g := { s.g with isDone := true } } where
  len := hI.len
  status := hI.status
  avail := hI.avail
  served := hI.served
  time := hI.time
  fifo := hI.fifo
  perm := hI.perm
  slot := hI.slot
  ids := hI.ids
  stop := fun h => ⟨rfl, (hI.stop h).2⟩

theorem inv_step (n : Nat) (q0 : List Party) (s s' : State) (e : Event) (hI : Inv n q0 s)
    (h : step n s e = some s') : Inv n q0 s' := by
  rcases step_cases n s s' e h with ⟨id, -, h1, h2, hpc, hd, hq, rfl⟩ |
    ⟨id, p, rest, -, h1, h2, hpc, hq, rfl⟩ | ⟨id, p, -, h1, h2, hpc, rfl⟩ |
    ⟨-, hg, hp, hc, hf⟩ | ⟨-, -, rfl⟩
  · exact inv_stop n q0 s id hI h1 h2 hpc hd hq
  · exact inv_claim n q0 s id p rest hI h1 h2 hpc hq
  · exact inv_finish n q0 s id p hI h1 h2 hpc
  · exact
      { len := by rw [hp]; exact hI.len
        status := by rw [hg, hp]; exact hI.status
        avail := by rw [hg, hp]; exact hI.avail
        served := by rw [hg, hc]; exact hI.served
        time := by rw [hg, hc]; exact hI.time
        fifo := by simp only [claimOrder, hg, hc]; exact hI.fifo
        perm := by simp only [claimOrder, finished, hp, hc, hf]; exact hI.perm
        slot := by rw [hp, hc, hf]; exact hI.slot
        ids := by rw [hc]; exact hI.ids
        stop := by rw [hp, hg]; exact hI.stop }
  · exact inv_shutdown n q0 s hI

theorem inv_run (n : Nat) (q0 : List Party) (tr : List Event) (s s' : State) (hI : Inv n q0 s)
    (h : run n s tr = some s') : Inv n q0 s' := by
  induction tr generalizing s with
  | nil =>
    simp only [run] at h
    cases h
    exact hI
  | cons e es ih =>
    simp only [run] at h
    cases hs : step n s e with
    | none => simp [hs] at h
    | some s1 =>
      simp only [hs] at h
      exact ih s1 (inv_step n q0 s s1 e hI hs) h

theorem inv_reachable (n : Nat) (q0 : List Party) (tr : List Event) (s : State)
    (h : run n (init n q0) tr = some s) : Inv n q0 s :=
  inv_run n q0 tr (init n q0) s (inv_init n q0) h

/-! ## Counting facts -/

theorem sum_indicator_zero (n k : Nat) (h : n ≤ k) :
    ((List.range n).map (fun i => if k = i then 1 else 0)).sum = 0 := by
  induction n with
  | zero => simp
  | succ m ih =>
    have hne : ¬ k = m := by omega
    rw [List.range_succ, List.map_append, List.sum_append, ih (by omega)]
    simp [hne]

theorem sum_indicator_one (n k : Nat) (h : k < n) :
    ((List.range n).map (fun i => if k = i then 1 else 0)).sum = 1 := by
  induction n with
  | zero => omega
  | succ m ih =>
    rw [List.range_succ, List.map_append, List.sum_append]
    by_cases hk : k = m
    · rw [sum_indicator_zero m k (by omega)]
      simp [hk]
    · rw [ih (by omega)]
      simp [hk]

theorem partiesOf_length_le (i : Nat) (log : List (Nat × Party)) :
    (partiesOf i log).length ≤ log.length := by
  simp only [partiesOf, List.length_map]
  exact List.length_filter_le _ _

theorem sum_partiesOf_length (n : Nat) (log : List (Nat × Party))
    (h : ∀ e ∈ log, 1 ≤ e.1 ∧ e.1 ≤ n) :
    ((List.range n).map (fun i => (partiesOf (i + 1) log).length)).sum = log.length := by
  induction log with
  | nil => simp [partiesOf]
  | cons e log ih =>
    have he := h e (List.mem_cons_self _ _)
    have hrest : ∀ x ∈ log, 1 ≤ x.1 ∧ x.1 ≤ n := fun x hx => h x (List.mem_cons_of_mem _ hx)
    have hfun : (fun i => (partiesOf (i + 1) (e :: log)).length) =
        (fun i => (if e.1 - 1 = i then 1 else 0) + (partiesOf (i + 1) log).length) := by
      funext i
      by_cases hi : e.1 = i + 1
      · have h1 : e.1 - 1 = i := by omega
        simp [partiesOf, List.filter_cons, hi]
        omega
      · have h1 : ¬ e.1 - 1 = i := by omega
        simp [partiesOf, List.filter_cons, hi, h1]
    rw [hfun, List.sum_map_add, ih hrest, sum_indicator_one n (e.1 - 1) (by omega)]
    simp
    omega

theorem total_parties_served_fold (xs : List Nat) (a : Nat) :
    xs.foldl (fun acc x => (acc + x) % UINT_RANGE) (a % UINT_RANGE) = (a + xs.sum) % UINT_RANGE := by
  induction xs generalizing a with
  | nil => simp
  | cons x xs ih =>
    simp only [List.foldl_cons, List.sum_cons]
    have e : (a % UINT_RANGE + x) % UINT_RANGE = (a + x) % UINT_RANGE := by
      simp only [UINT_RANGE]; omega
    rw [e, ih (a + x), Nat.add_assoc]

theorem total_parties_served_eq (xs : List Nat) : total_parties_served xs = xs.sum % UINT_RANGE := by
  have := total_parties_served_fold xs 0
  simpa [total_parties_served] using this

theorem held_length_le (l : List Pc) : (held l).length ≤ l.length := by
  induction l with
  | nil => simp [held]
  | cons c l ih => cases c <;> simp [held] <;> omega

theorem count_active (l : List Pc) : (l.map statusOf).count "active" = (held l).length := by
  induction l with
  | nil => simp [held]
  | cons c l ih => cases c <;> simp [held, statusOf, List.count_cons, ih]

theorem count_unavailable (l : List Pc) : (l.map availOf).count false = (held l).length := by
  induction l with
  | nil => simp [held]
  | cons c l ih => cases c <;> simp [held, availOf, List.count_cons, ih]

theorem mem_held (l : List Pc) (i : Nat) (p : Party) (h : l[i]? = some (Pc.processing p)) :
    p ∈ held l := by
  induction l generalizing i with
  | nil => simp at h
  | cons c l ih =>
    cases i with
    | zero =>
      simp at h
      subst h
      simp [held]
    | succ i =>
      simp at h
      have := ih i h
      cases c <;> simp [held, this]

theorem holder_unique (l : List Pc) (i j : Nat) (p : Party) (hnd : (held l).Nodup)
    (hi : l[i]? = some (Pc.processing p)) (hj : l[j]? = some (Pc.processing p)) : i = j := by
  induction l generalizing i j with
  | nil => simp at hi
  | cons c l ih =>
    have hnd' : (held l).Nodup := by
      cases c <;> simp [held] at hnd <;> first | exact hnd | exact hnd.2
    cases i with
    | zero =>
      cases j with
      | zero => rfl
      | succ j =>
        simp at hi hj
        subst hi
        simp [held] at hnd
        exact absurd (mem_held l j p hj) hnd.1
    | succ i =>
      cases j with
      | zero =>
        simp at hi hj
        subst hj
        simp [held] at hnd
        exact absurd (mem_held l i p hi) hnd.1
      | succ j =>
        simp at hi hj
        rw [ih i j hnd' hi hj]

theorem held_nil_no_processing (l : List Pc) (h : held l = []) :
    ∀ c ∈ l, c = Pc.waiting ∨ c = Pc.stopped := by
  induction l with
  | nil => simp
  | cons c l ih =>
    cases c with
    | processing p => simp [held] at h
    | waiting =>
      simp only [held] at h
      intro c hc
      rcases List.mem_cons.mp hc with rfl | hc
      · exact Or.inl rfl
      · exact ih h c hc
    | stopped =>
      simp only [held] at h
      intro c hc
      rcases List.mem_cons.mp hc with rfl | hc
      · exact Or.inr rfl
      · exact ih h c hc

/-! ## Properties of the step relation -/

/-- C1: in every state reachable from `init n q0`, the initial queue is a
rearrangement of the parties still queued, the parties held by processing
threads (one entry per thread) and the parties already finished (one entry per
completion); when the parties of `q0` are pairwise distinct every one of them
occurs exactly once in these three lists together and no party is held by two threads. -/
theorem C1_no_loss_no_duplication (n : Nat) (q0 : List Party) (tr : List Event) (s : State)
    (h : run n (init n q0) tr = some s) :
    List.Perm q0 (s.g.partyQueue ++ held s.pc ++ finished s) ∧
    (∀ p, q0.count p =
      s.g.partyQueue.count p + (held s.pc).count p + (finished s).count p) ∧
    (q0.Nodup → ∀ p ∈ q0,
      s.g.partyQueue.count p + (held s.pc).count p + (finished s).count p = 1) ∧
    (q0.Nodup → ∀ (i j : Nat) (p : Party), s.pc[i]? = some (Pc.processing p) →
      s.pc[j]? = some (Pc.processing p) → i = j) := by
  have hI := inv_reachable n q0 tr s h
  have hperm : List.Perm q0 (s.g.partyQueue ++ held s.pc ++ finished s) := by
    rw [hI.fifo]
    refine (List.Perm.append_right _ hI.perm).trans ?_
    refine List.perm_append_comm.trans ?_
    rw [List.append_assoc]
    exact List.Perm.append_left _ List.perm_append_comm
  have hcount : ∀ p, q0.count p =
      s.g.partyQueue.count p + (held s.pc).count p + (finished s).count p := by
    intro p
    rw [hperm.count_eq p, List.count_append, List.count_append]
  refine ⟨hperm, hcount, ?_, ?_⟩
  · intro hnd p hp
    rw [← hcount p]
    exact List.count_eq_one_of_mem hnd hp
  · intro hnd i j p hi hj
    have hnd2 : (s.g.partyQueue ++ held s.pc ++ finished s).Nodup := hperm.nodup_iff.mp hnd
    have hnd3 : (held s.pc).Nodup := by
      have := (List.nodup_append.mp hnd2).1
      exact (List.nodup_append.mp this).2.1
    exact holder_unique s.pc i j p hnd3 hi hj

/-- C2: in every execution the parties in claim order form an initial segment
of `q0`: the queue that remains is exactly what follows the claimed parties,
and the k-th claim takes the k-th party of `q0`. -/
theorem C2_claims_are_fifo (n : Nat) (q0 : List Party) (tr : List Event) (s : State)
    (h : run n (init n q0) tr = some s) :
    claimOrder s <+: q0 ∧ q0 = claimOrder s ++ s.g.partyQueue ∧
    (∀ k, k < (claimOrder s).length → (claimOrder s)[k]? = q0[k]?) := by
  have hI := inv_reachable n q0 tr s h
  refine ⟨⟨s.g.partyQueue, hI.fifo.symm⟩, hI.fifo, ?_⟩
  intro k hk
  rw [hI.fifo, List.getElem?_append_left hk]

/-- C3: for `n ≥ 1` threads and an initial queue shorter than `2 ^ 32` (the
queue length is the `unsigned int` `max_parties`), in every reachable state in
which all threads have stopped the served counters add up to the length of
`q0`, and so does the total computed by `main`. -/
theorem C3_served_total (n : Nat) (q0 : List Party) (tr : List Event) (s : State)
    (hn : 1 ≤ n) (hlen : q0.length < UINT_RANGE)
    (h : run n (init n q0) tr = some s) (hs : allStopped s) :
    s.g.num_parties_served.sum = q0.length ∧
    total_parties_served s.g.num_parties_served = q0.length := by
  have hI := inv_reachable n q0 tr s h
  have hmem : Pc.stopped ∈ s.pc := by
    cases hpc : s.pc with
    | nil =>
      have := hI.len
      rw [hpc] at this
      simp at this
      omega
    | cons c l =>
      have : c = Pc.stopped := hs c (by rw [hpc]; exact List.mem_cons_self _ _)
      rw [this]
      exact List.mem_cons_self _ _
  have hq := (hI.stop hmem).2
  have hlenc : s.claimed.length = q0.length := by
    have := congrArg List.length hI.fifo
    simp [claimOrder, hq] at this
    exact this.symm
  have hfun : (fun i => (partiesOf (i + 1) s.claimed).length % UINT_RANGE) =
      (fun i => (partiesOf (i + 1) s.claimed).length) := by
    funext i
    apply Nat.mod_eq_of_lt
    have := partiesOf_length_le (i + 1) s.claimed
    omega
  have hsum : s.g.num_parties_served.sum = q0.length := by
    rw [hI.served, hfun, sum_partiesOf_length n s.claimed hI.ids, hlenc]
  refine ⟨hsum, ?_⟩
  rw [total_parties_served_eq, hsum]
  exact Nat.mod_eq_of_lt hlen

/-- C5 (as the code behaves): in every reachable state the served time of each
slot equals, modulo `2 ^ 32`, the sum of the durations of the parties the slot
has finished plus the duration of the party it is still processing, which is
the sum of the durations of all parties the slot has claimed; the completion
section leaves the served time unchanged. -/
theorem C5_time_recorded_at_claim (n : Nat) (q0 : List Party) (tr : List Event) (s : State)
    (h : run n (init n q0) tr = some s) :
    (∀ i, i < n →
      s.g.instance_time_served[i]? =
        some ((durationSum (partiesOf (i + 1) s.completed) +
          durationSum (heldBy (s.pc.getD i Pc.stopped))) % (UINT_RANGE : Int)).toNat) ∧
    (∀ i, i < n →
      s.g.instance_time_served[i]? =
        some (durationSum (partiesOf (i + 1) s.claimed) % (UINT_RANGE : Int)).toNat) ∧
    (∀ id, (instanceHandlerFinish id s.g).instance_time_served = s.g.instance_time_served) := by
  have hI := inv_reachable n q0 tr s h
  have h2 : ∀ i, i < n →
      s.g.instance_time_served[i]? =
        some (durationSum (partiesOf (i + 1) s.claimed) % (UINT_RANGE : Int)).toNat := by
    intro i hi
    rw [hI.time]
    simp [List.getElem?_range hi]
  refine ⟨?_, h2, fun _ => rfl⟩
  intro i hi
  rw [h2 i hi, hI.slot i hi]
  simp [durationSum]

/-- C8: in every reachable state both vectors have `n` entries and, for every
slot index below `n`, the availability flag is `true` exactly when the status
is "empty". -/
theorem C8_available_iff_empty (n : Nat) (q0 : List Party) (tr : List Event) (s : State)
    (h : run n (init n q0) tr = some s) :
    s.g.isInstanceAvailable.length = n ∧ s.g.instance_status.length = n ∧
    ∀ i, i < n →
      (s.g.isInstanceAvailable[i]? = some true ↔ s.g.instance_status[i]? = some "empty") := by
  have hI := inv_reachable n q0 tr s h
  refine ⟨by rw [hI.avail, List.length_map, hI.len],
    by rw [hI.status, List.length_map, hI.len], ?_⟩
  intro i hi
  have hlt : i < s.pc.length := by rw [hI.len]; exact hi
  rw [hI.avail, hI.status, List.getElem?_map, List.getElem?_map, List.getElem?_eq_getElem hlt]
  cases s.pc[i] <;> simp [availOf, statusOf]

/-- C9: in every reachable state the number of "active" slots equals the
number of unavailable slots and the number of parties being processed, which
is at most `n`; a slot is "active" exactly when its thread holds a party; and a
thread claims a party only while its own slot is "empty" and available. -/
theorem C9_busy_slots (n : Nat) (q0 : List Party) (tr : List Event) (s : State)
    (h : run n (init n q0) tr = some s) :
    busyCount s.g = (held s.pc).length ∧
    s.g.isInstanceAvailable.count false = (held s.pc).length ∧
    (held s.pc).length ≤ n ∧
    (∀ i, i < n →
      (s.g.instance_status[i]? = some "active" ↔ ∃ p, s.pc[i]? = some (Pc.processing p))) ∧
    (∀ id s', step n s (Event.worker id) = some s' → s'.claimed ≠ s.claimed →
      s.pc.getD (id - 1) Pc.stopped = Pc.waiting ∧
      s.g.instance_status[id - 1]? = some "empty" ∧
      s.g.isInstanceAvailable[id - 1]? = some true) := by
  have hI := inv_reachable n q0 tr s h
  refine ⟨?_, ?_, ?_, ?_, ?_⟩
  · rw [busyCount, hI.status, count_active]
  · rw [hI.avail, count_unavailable]
  · rw [← hI.len]
    exact held_length_le s.pc
  · intro i hi
    have hlt : i < s.pc.length := by rw [hI.len]; exact hi
    rw [hI.status, List.getElem?_map, List.getElem?_eq_getElem hlt]
    cases s.pc[i] <;> simp [statusOf]
  · intro id s' hstep hne
    rcases step_cases n s s' _ hstep with ⟨id', he, h1, h2, hpc, hd, hq, rfl⟩ |
      ⟨id', p, rest, he, h1, h2, hpc, hq, rfl⟩ | ⟨id', p, he, h1, h2, hpc, rfl⟩ |
      ⟨he, hg, hp, hc, hf⟩ | ⟨he, -, rfl⟩
    · exact absurd rfl hne
    · cases he
      have hlt : id - 1 < s.pc.length := by rw [hI.len]; omega
      refine ⟨hpc, ?_, ?_⟩
      · rw [hI.status, List.getElem?_map, List.getElem?_eq_getElem hlt]
        simp [List.getD_eq_getElem?_getD, List.getElem?_eq_getElem hlt] at hpc
        simp [hpc, statusOf]
      · rw [hI.avail, List.getElem?_map, List.getElem?_eq_getElem hlt]
        simp [List.getD_eq_getElem?_getD, List.getElem?_eq_getElem hlt] at hpc
        simp [hpc, availOf]
    · exact absurd rfl hne
    · cases he
    · cases he

/-- C4: when the wait predicate holds, the locked section of `instanceHandler`
stops exactly when `isDone` is set and the queue is empty; otherwise the queue
is non-empty and its front party is claimed (also when `isDone` is set), so
`front()` is never evaluated on an empty queue. With an empty initial queue
every served counter stays 0, no thread ever processes, and once `isDone` is
set the next section of every waiting thread is enabled and stops it. -/
theorem C4_stop_condition (id : Nat) (g : Shared) (hpred : waitPredicate g = true) :
    (instanceHandlerLocked id g = Outcome.stops ↔ (g.isDone = true ∧ g.partyQueue = [])) ∧
    (¬ (g.isDone = true ∧ g.partyQueue = []) →
      ∃ p rest, g.partyQueue = p :: rest ∧
        instanceHandlerLocked id g = Outcome.claims p (claimUpdate id p rest g)) ∧
    instanceHandlerLocked id g ≠ Outcome.emptyFront ∧
    (∀ n tr s, run n (init n []) tr = some s →
      s.g.num_parties_served = List.replicate n 0 ∧
      (∀ c ∈ s.pc, c = Pc.waiting ∨ c = Pc.stopped) ∧
      (s.g.isDone = true → ∀ k, 1 ≤ k → k ≤ n → s.pc.getD (k - 1) Pc.stopped = Pc.waiting →
        step n s (Event.worker k) = some { s with pc := s.pc.set (k - 1) Pc.stopped })) := by
  refine ⟨?_, ?_, ?_, ?_⟩
  · unfold instanceHandlerLocked
    unfold waitPredicate at hpred
    cases hq : g.partyQueue with
    | nil => cases hd : g.isDone <;> simp [hq, hd, waitPredicate] at hpred ⊢
    | cons p rest => cases hd : g.isDone <;> simp [hq, hd, waitPredicate]
  · intro hno
    unfold instanceHandlerLocked
    unfold waitPredicate at hpred
    cases hq : g.partyQueue with
    | nil => cases hd : g.isDone <;> simp [hq, hd] at hpred hno
    | cons p rest =>
      refine ⟨p, rest, rfl, ?_⟩
      cases hd : g.isDone <;> simp [hq, hd, waitPredicate]
  · unfold instanceHandlerLocked
    unfold waitPredicate at hpred
    cases hq : g.partyQueue with
    | nil => cases hd : g.isDone <;> simp [hq, hd, waitPredicate] at hpred ⊢
    | cons p rest => cases hd : g.isDone <;> simp [hq, hd, waitPredicate]
  · intro n tr s h
    have hI := inv_reachable n [] tr s h
    have hf := hI.fifo
    have hc : s.claimed = [] := by
      have := congrArg List.length hf
      simp [claimOrder] at this
      exact List.length_eq_zero.mp (by omega)
    have hq : s.g.partyQueue = [] := by
      have := congrArg List.length hf
      simp at this
      exact List.length_eq_zero.mp (by omega)
    have hheld : held s.pc = [] := by
      have := hI.perm
      simp only [claimOrder, hc, List.map_nil] at this
      have h0 := this.length_eq
      simp at h0
      exact List.length_eq_zero.mp (by omega)
    refine ⟨?_, held_nil_no_processing s.pc hheld, ?_⟩
    · rw [hI.served, hc]
      apply List.ext_getElem?
      intro i
      by_cases hi : i < n
      · simp [partiesOf, List.getElem?_replicate, hi, List.getElem?_range hi]
      · have h2 : (List.range n)[i]? = none := List.getElem?_eq_none (by simpa using hi)
        simp [List.getElem?_replicate, hi, h2]
    · intro hd k h1 h2 hpc
      simp only [step, h1, h2, and_self, if_true, hpc]
      simp [instanceHandlerLocked, waitPredicate, hd, hq]

/-! ## The properties on concrete executions -/

theorem C1_witness :
    run 2 (init 2 scenarioQueue) [Event.worker 1, Event.worker 2, Event.worker 1]
      = some stateOneFinished ∧
    List.Perm scenarioQueue
      (stateOneFinished.g.partyQueue ++ held stateOneFinished.pc ++ finished stateOneFinished) :=
  ⟨by decide,
   (C1_no_loss_no_duplication 2 scenarioQueue
      [Event.worker 1, Event.worker 2, Event.worker 1] stateOneFinished (by decide)).1⟩

theorem C2_witness :
    run 2 (init 2 scenarioQueue) [Event.dispatcher, Event.worker 2, Event.worker 1]
      = some stateBothBusy ∧
    claimOrder stateBothBusy = [⟨1, 2⟩, ⟨2, 1⟩] ∧
    scenarioQueue = claimOrder stateBothBusy ++ stateBothBusy.g.partyQueue :=
  ⟨by decide, by decide,
   (C2_claims_are_fifo 2 scenarioQueue
      [Event.dispatcher, Event.worker 2, Event.worker 1] stateBothBusy (by decide)).2.1⟩

theorem C3_witness :
    run 2 (init 2 scenarioQueue) scenarioSchedule = some scenarioFinal ∧
    allStopped scenarioFinal ∧
    scenarioFinal.g.num_parties_served.sum = 2 ∧
    total_parties_served scenarioFinal.g.num_parties_served = 2 :=
  ⟨by decide, by simp [allStopped, scenarioFinal],
   C3_served_total 2 scenarioQueue scenarioSchedule scenarioFinal (by decide) (by decide)
     (by decide) (by simp [allStopped, scenarioFinal])⟩

/-- C5, as stated, fails: one thread, one party of duration 2. Right after the
claim the thread is still processing the party and has finished nothing, yet
the served time of its slot is already 2. -/
theorem C5_counterexample :
    run 1 (init 1 [⟨1, 2⟩]) [Event.worker 1] = some stateJustClaimed ∧
    stateJustClaimed.pc = [Pc.processing ⟨1, 2⟩] ∧
    partiesOf 1 stateJustClaimed.completed = [] ∧
    stateJustClaimed.g.instance_time_served = [2] ∧
    ¬ (∀ i, i < 1 → stateJustClaimed.g.instance_time_served[i]? =
        some (durationSum (partiesOf (i + 1) stateJustClaimed.completed) %
          (UINT_RANGE : Int)).toNat) := by
  refine ⟨by decide, by decide, by decide, by decide, ?_⟩
  intro h
  have := h 0 (by decide)
  revert this
  decide

theorem C5_witness :
    run 1 (init 1 [⟨1, 2⟩]) [Event.worker 1] = some stateJustClaimed ∧
    stateJustClaimed.g.instance_time_served[0]? = some 2 :=
  ⟨by decide,
   ((C5_time_recorded_at_claim 1 [⟨1, 2⟩] [Event.worker 1] stateJustClaimed
      (by decide)).2.1 0 (by decide)).trans (by decide)⟩

theorem C8_witness :
    run 2 (init 2 scenarioQueue) [Event.worker 1, Event.shutdown] = some stateDoneWithWork ∧
    (stateDoneWithWork.g.isInstanceAvailable[0]? = some true ↔
      stateDoneWithWork.g.instance_status[0]? = some "empty") ∧
    (stateDoneWithWork.g.isInstanceAvailable[1]? = some true ↔
      stateDoneWithWork.g.instance_status[1]? = some "empty") :=
  ⟨by decide,
   (C8_available_iff_empty 2 scenarioQueue [Event.worker 1, Event.shutdown] stateDoneWithWork
      (by decide)).2.2 0 (by decide),
   (C8_available_iff_empty 2 scenarioQueue [Event.worker 1, Event.shutdown] stateDoneWithWork
      (by decide)).2.2 1 (by decide)⟩

theorem C9_witness :
    run 1 (init 1 unitQueue) [Event.worker 1] = some stateUnitBusy ∧
    busyCount stateUnitBusy.g = 1 ∧
    step 1 stateUnitBusy (Event.worker 1) = some stateUnitIdle ∧
    stateUnitIdle.claimed = stateUnitBusy.claimed ∧
    busyCount stateUnitBusy.g = (held stateUnitBusy.pc).length :=
  ⟨by decide, by decide, by decide, by decide,
   (C9_busy_slots 1 unitQueue [Event.worker 1] stateUnitBusy (by decide)).1⟩

theorem C4_witness :
    waitPredicate stateDoneWithWork.g = true ∧
    instanceHandlerLocked 2 stateDoneWithWork.g ≠ Outcome.stops ∧
    instanceHandlerLocked 2 stateDoneWithWork.g ≠ Outcome.emptyFront ∧
    run 2 (init 2 []) [Event.shutdown, Event.worker 1] = some stateEmptyDone ∧
    stateEmptyDone.g.num_parties_served = [0, 0] ∧
    step 2 stateEmptyDone (Event.worker 2) =
      some { stateEmptyDone with pc := [Pc.stopped, Pc.stopped] } :=
  ⟨by decide, by decide,
   (C4_stop_condition 2 stateDoneWithWork.g (by decide)).2.2.1,
   by decide,
   ((C4_stop_condition 2 stateDoneWithWork.g (by decide)).2.2.2 2
      [Event.shutdown, Event.worker 1] stateEmptyDone (by decide)).1,
   ((C4_stop_condition 2 stateDoneWithWork.g (by decide)).2.2.2 2
      [Event.shutdown, Event.worker 1] stateEmptyDone (by decide)).2.2 (by decide) 2
      (by decide) (by decide) (by decide)⟩

/-! ## Input validation and party formation -/

theorem toUnsigned_of_range (z : Int) (h0 : 0 ≤ z) (h1 : z ≤ INT_MAX) :
    toUnsigned z = z.toNat ∧ ((toUnsigned z : Nat) : Int) = z := by
  have hlt : z < ((UINT_RANGE : Nat) : Int) := by
    simp only [INT_MAX, UINT_RANGE] at *
    omega
  have e : z % ((UINT_RANGE : Nat) : Int) = z := Int.emod_eq_of_lt h0 hlt
  constructor
  · simp only [toUnsigned, e]
  · simp only [toUnsigned, e]
    exact Int.toNat_of_nonneg h0

theorem mem_of_mem_ignoreLine (x : Item) (l : List Item) (h : x ∈ ignoreLine l) : x ∈ l := by
  induction l with
  | nil => simp [ignoreLine] at h
  | cons a l ih =>
    cases a with
    | tok t =>
      simp only [ignoreLine] at h
      exact List.mem_cons_of_mem _ (ih h)
    | newline =>
      simp only [ignoreLine] at h
      exact List.mem_cons_of_mem _ h

theorem getValidInput_sound (minValue maxValue : Nat) (input rest : List Item) (v : Nat)
    (h : getValidInput minValue maxValue input = some (v, rest)) :
    minValue ≤ v ∧ v ≤ maxValue ∧
    ∃ z, Item.tok (Token.lit z) ∈ input ∧ 0 ≤ z ∧ z ≤ INT_MAX ∧ (v : Int) = z := by
  induction input using getValidInput.induct minValue maxValue with
  | case1 => simp [getValidInput] at h
  | case2 r ih =>
    rw [getValidInput] at h
    obtain ⟨h1, h2, z, hz, hrest⟩ := ih h
    exact ⟨h1, h2, z, List.mem_cons_of_mem _ hz, hrest⟩
  | case3 t r hex ih =>
    rw [getValidInput] at h
    simp only [hex] at h
    obtain ⟨h1, h2, z, hz, hrest⟩ := ih h
    exact ⟨h1, h2, z, List.mem_cons_of_mem _ (mem_of_mem_ignoreLine _ _ hz), hrest⟩
  | case4 t r tempValue hex hbad ih =>
    rw [getValidInput] at h
    simp only [hex, hbad, if_true] at h
    obtain ⟨h1, h2, z, hz, hrest⟩ := ih h
    exact ⟨h1, h2, z, List.mem_cons_of_mem _ hz, hrest⟩
  | case5 t r tempValue hex hok =>
    rw [getValidInput] at h
    simp only [hex, hok, if_false] at h
    have hv : toUnsigned tempValue = v := (Prod.mk.inj (Option.some.inj h)).1
    cases t with
    | garbage => simp [extractInt] at hex
    | lit z =>
      simp only [extractInt] at hex
      split at hex
      · rename_i hr
        have hz : z = tempValue := Option.some.inj hex
        subst hz
        have h0 : 0 ≤ z := by
          by_contra hneg
          exact hok (Or.inl (by omega))
        have hu := toUnsigned_of_range z h0 hr.2
        refine ⟨?_, ?_, z, List.mem_cons_self _ _, h0, hr.2, ?_⟩
        · by_contra hlt
          exact hok (Or.inr (Or.inl (by omega)))
        · by_contra hgt
          exact hok (Or.inr (Or.inr (by omega)))
        · rw [← hv]
          exact hu.2
      · simp at hex

theorem readTimes_sound (fuel : Nat) (input rest : List Item) (t1 t2 : Nat)
    (h : readTimes fuel input = some ((t1, t2), rest)) : 1 ≤ t1 ∧ t1 ≤ t2 := by
  induction fuel generalizing input with
  | zero => simp [readTimes] at h
  | succ fuel ih =>
    simp only [readTimes] at h
    cases h1 : getValidInput 1 UINT_MAX input with
    | none => simp [h1] at h
    | some x1 =>
      obtain ⟨a, r1⟩ := x1
      simp only [h1] at h
      cases h2 : getValidInput a UINT_MAX r1 with
      | none => simp [h2] at h
      | some x2 =>
        obtain ⟨b, r2⟩ := x2
        simp only [h2] at h
        have s1 := getValidInput_sound 1 UINT_MAX input r1 a h1
        have s2 := getValidInput_sound a UINT_MAX r1 r2 b h2
        have hle : ¬ a > b := by omega
        simp only [hle, if_false] at h
        have e := (Prod.mk.inj (Option.some.inj h)).1
        have ea := (Prod.mk.inj e).1
        have eb := (Prod.mk.inj e).2
        subst ea eb
        exact ⟨s1.1, s2.1⟩

/-- The loop of lines 111-117 is left after its first round: one round of fuel
gives the same result as any larger amount. -/
theorem readTimes_one_round (fuel : Nat) (input : List Item) :
    readTimes (fuel + 1) input = readTimes 1 input := by
  simp only [readTimes]
  cases h1 : getValidInput 1 UINT_MAX input with
  | none => simp only
  | some x1 =>
    obtain ⟨a, r1⟩ := x1
    simp only
    cases h2 : getValidInput a UINT_MAX r1 with
    | none => simp only
    | some x2 =>
      obtain ⟨b, r2⟩ := x2
      have s2 := getValidInput_sound a UINT_MAX r1 r2 b h2
      have hle : ¬ a > b := by omega
      simp only [hle, if_false]

/-- C10: a value returned by `getValidInput` is the value of an integer word
of the input that is non-negative, fits an `int` and lies between `minValue`
and `maxValue`; a word that is such a value is returned, any other integer
word makes the loop read on; and the configuration `main` reads has at least
one instance and a maximum time that is at least the minimum time. -/
theorem C10_validation (minValue maxValue : Nat) (input rest : List Item) (v : Nat)
    (cfgInput cfgRest : List Item) (cfg : Config)
    (h : getValidInput minValue maxValue input = some (v, rest))
    (hc : readConfig cfgInput = some (cfg, cfgRest)) :
    (minValue ≤ v ∧ v ≤ maxValue ∧
      ∃ z, Item.tok (Token.lit z) ∈ input ∧ 0 ≤ z ∧ z ≤ INT_MAX ∧ (v : Int) = z) ∧
    (∀ z r, 0 ≤ z → z ≤ INT_MAX → (minValue : Int) ≤ z → z ≤ (maxValue : Int) →
      getValidInput minValue maxValue (Item.tok (Token.lit z) :: r) = some (z.toNat, r)) ∧
    (∀ z r, INT_MIN ≤ z → z ≤ INT_MAX → (z < 0 ∨ z < (minValue : Int) ∨ (maxValue : Int) < z) →
      getValidInput minValue maxValue (Item.tok (Token.lit z) :: r) =
        getValidInput minValue maxValue r) ∧
    (∀ z r, (z < INT_MIN ∨ INT_MAX < z) →
      getValidInput minValue maxValue (Item.tok (Token.lit z) :: r) =
        getValidInput minValue maxValue (ignoreLine r)) ∧
    (∀ r, getValidInput minValue maxValue (Item.tok Token.garbage :: r) =
        getValidInput minValue maxValue (ignoreLine r)) ∧
    1 ≤ cfg.n ∧ 1 ≤ cfg.t1 ∧ cfg.t1 ≤ cfg.t2 := by
  refine ⟨getValidInput_sound minValue maxValue input rest v h, ?_, ?_, ?_, ?_, ?_⟩
  · intro z r h0 h1 hmin hmax
    have hu := toUnsigned_of_range z h0 h1
    have hr : INT_MIN ≤ z ∧ z ≤ INT_MAX := ⟨by simp only [INT_MIN]; omega, h1⟩
    have hok : ¬ (z < 0 ∨ toUnsigned z < minValue ∨ toUnsigned z > maxValue) := by
      have := hu.2
      omega
    rw [getValidInput]
    simp only [extractInt, hr, and_self, if_true, hok, if_false]
    rw [hu.1]
  · intro z r h0 h1 hbad
    have hr : INT_MIN ≤ z ∧ z ≤ INT_MAX := ⟨h0, h1⟩
    have hb : z < 0 ∨ toUnsigned z < minValue ∨ toUnsigned z > maxValue := by
      by_cases hneg : z < 0
      · exact Or.inl hneg
      · have := (toUnsigned_of_range z (by omega) h1).2
        omega
    rw [getValidInput]
    simp only [extractInt, hr, and_self, if_true, hb]
  · intro z r hout
    have hr : ¬ (INT_MIN ≤ z ∧ z ≤ INT_MAX) := by omega
    rw [getValidInput]
    simp only [extractInt, hr, if_false]
  · intro r
    rw [getValidInput]
    simp only [extractInt]
  · simp only [readConfig] at hc
    cases h1 : getValidInput 1 UINT_MAX cfgInput with
    | none => simp [h1] at hc
    | some x1 =>
      obtain ⟨n, r1⟩ := x1
      simp only [h1] at hc
      cases h2 : getValidInput 1 UINT_MAX r1 with
      | none => simp [h2] at hc
      | some x2 =>
        obtain ⟨t, r2⟩ := x2
        simp only [h2] at hc
        cases h3 : getValidInput 1 UINT_MAX r2 with
        | none => simp [h3] at hc
        | some x3 =>
          obtain ⟨hh, r3⟩ := x3
          simp only [h3] at hc
          cases h4 : getValidInput 1 UINT_MAX r3 with
          | none => simp [h4] at hc
          | some x4 =>
            obtain ⟨d, r4⟩ := x4
            simp only [h4] at hc
            cases h5 : readTimes (r4.length + 1) r4 with
            | none => simp [h5] at hc
            | some x5 =>
              obtain ⟨⟨t1, t2⟩, r5⟩ := x5
              simp only [h5] at hc
              have e := (Prod.mk.inj (Option.some.inj hc)).1
              subst e
              have s1 := getValidInput_sound 1 UINT_MAX cfgInput r1 n h1
              have s5 := readTimes_sound _ r4 r5 t1 t2 h5
              exact ⟨s1.1, s5.1, s5.2⟩

theorem C10_witness :
    getValidInput 1 UINT_MAX sampleInput =
      some (2, sampleRest) ∧
    readConfig sampleInput = some (sampleConfig, [Item.newline]) ∧
    1 ≤ sampleConfig.n ∧ 1 ≤ sampleConfig.t1 ∧ sampleConfig.t1 ≤ sampleConfig.t2 :=
  ⟨by simp [sampleInput, sampleRest, getValidInput, extractInt, ignoreLine, toUnsigned, INT_MIN, INT_MAX,
      UINT_MAX, UINT_RANGE],
   by simp [readConfig, readTimes, sampleInput, getValidInput, extractInt, ignoreLine,
      toUnsigned, INT_MIN, INT_MAX, UINT_MAX, UINT_RANGE, sampleConfig],
   (C10_validation 1 UINT_MAX sampleInput sampleRest 2 sampleInput [Item.newline] sampleConfig
      (by simp [sampleInput, sampleRest, getValidInput, extractInt, ignoreLine, toUnsigned, INT_MIN,
        INT_MAX, UINT_MAX, UINT_RANGE])
      (by simp [readConfig, readTimes, sampleInput, getValidInput, extractInt, ignoreLine,
        toUnsigned, INT_MIN, INT_MAX, UINT_MAX, UINT_RANGE, sampleConfig])).2.2.2.2.2⟩

theorem populateFrom_eq (m : Nat) (dis : Nat → Int) (k i : Nat) (q : List Party)
    (h : m - i = k) :
    populateFrom m dis i q =
      q ++ (List.range' i k).map (fun (j : Nat) => ({ id := (j : Int) + 1, duration := dis j } : Party)) := by
  induction k generalizing i q with
  | zero =>
    rw [populateFrom]
    have : ¬ i < m := by omega
    simp [this]
  | succ k ih =>
    rw [populateFrom]
    have hlt : i < m := by omega
    simp only [hlt, if_true]
    rw [ih (i + 1) _ (by omega)]
    simp [List.range']

theorem populate_eq (m : Nat) (dis : Nat → Int) :
    populate m dis =
      (List.range m).map (fun (j : Nat) => ({ id := (j : Int) + 1, duration := dis j } : Party)) := by
  rw [populate, populateFrom_eq m dis m 0 [] (by omega), List.range_eq_range']
  simp

/-- C7: for `unsigned int` player counts `t`, `h`, `d`, with
`k = min(t, h, d / 3)`, `main` builds a queue of exactly `k` parties whose ids
are `1, ..., k` in this order, the threads start with this queue untouched, and
`t = k + unmatched_tanks`, `h = k + unmatched_healers`,
`d = 3 * k + unmatched_dps` hold as natural numbers: `3 * k` stays below
`2 ^ 32` and the loop counter below `2 ^ 31`. -/
theorem C7_party_formation (n t h d : Nat) (dis : Nat → Int)
    (ht : t < UINT_RANGE) (hh : h < UINT_RANGE) (hd : d < UINT_RANGE) :
    (formParties t h d).max_parties = min t (min h (d / 3)) ∧
    (populate (formParties t h d).max_parties dis).length = (formParties t h d).max_parties ∧
    (populate (formParties t h d).max_parties dis).map Party.id =
      (List.range (formParties t h d).max_parties).map (fun (i : Nat) => (i : Int) + 1) ∧
    (mainInit n t h d dis).g.partyQueue = populate (formParties t h d).max_parties dis ∧
    (mainInit n t h d dis).claimed = [] ∧
    (mainInit n t h d dis).pc = List.replicate n Pc.waiting ∧
    t = (formParties t h d).max_parties + (formParties t h d).unmatched_tanks ∧
    h = (formParties t h d).max_parties + (formParties t h d).unmatched_healers ∧
    d = 3 * (formParties t h d).max_parties + (formParties t h d).unmatched_dps ∧
    3 * (formParties t h d).max_parties < UINT_RANGE ∧
    ((formParties t h d).max_parties : Int) ≤ INT_MAX := by
  have hk : (formParties t h d).max_parties = min t (min h (d / 3)) := rfl
  have h1 : min t (min h (d / 3)) ≤ t := Nat.min_le_left _ _
  have h2 : min t (min h (d / 3)) ≤ h := (Nat.min_le_right _ _).trans (Nat.min_le_left _ _)
  have h3 : min t (min h (d / 3)) ≤ d / 3 := (Nat.min_le_right _ _).trans (Nat.min_le_right _ _)
  refine ⟨hk, ?_, ?_, rfl, rfl, rfl, ?_, ?_, ?_, ?_, ?_⟩
  · rw [populate_eq]
    simp
  · rw [populate_eq]
    simp
  · simp only [formParties, usub, UINT_RANGE] at *
    omega
  · simp only [formParties, usub, UINT_RANGE] at *
    omega
  · simp only [formParties, usub, umul, UINT_RANGE] at *
    omega
  · simp only [formParties, UINT_RANGE] at *
    omega
  · simp only [formParties, UINT_RANGE, INT_MAX] at *
    omega

theorem C7_witness :
    (formParties 5 4 10).max_parties = 3 ∧
    (populate 3 unitDurations).map Party.id = [1, 2, 3] ∧
    5 = 3 + (formParties 5 4 10).unmatched_tanks ∧
    4 = 3 + (formParties 5 4 10).unmatched_healers ∧
    10 = 3 * 3 + (formParties 5 4 10).unmatched_dps :=
  ⟨by decide,
   (C7_party_formation 2 5 4 10 unitDurations (by decide) (by decide) (by decide)).2.2.1.trans
     (by decide),
   (C7_party_formation 2 5 4 10 unitDurations (by decide) (by decide) (by decide)).2.2.2.2.2.2.1,
   (C7_party_formation 2 5 4 10 unitDurations (by decide) (by decide)
     (by decide)).2.2.2.2.2.2.2.1,
   (C7_party_formation 2 5 4 10 unitDurations (by decide) (by decide)
     (by decide)).2.2.2.2.2.2.2.2.1⟩

/-! ## The unlocked shutdown -/

/-- C6 (what the code does): with one instance thread and an empty queue, the
schedule `lostWakeupSchedule` of the finer relation ends in a state in which
`isDone` is set and `notify_all` has been called, the dispatcher has left, `main`
waits in `join`, the instance thread is blocked in `cv.wait`, and no thread can
take any further action. -/
theorem C6_lost_wakeup :
    (formParties 1 1 1).max_parties = 0 ∧
    fineRun 1 (fineInit 1 []) lostWakeupSchedule = some lostWakeupState ∧
    lostWakeupState.g.isDone = true ∧
    lostWakeupState.mpc = MainPc.joining ∧
    lostWakeupState.dpc = DispatcherPc.exited ∧
    lostWakeupState.wpc = [WaitPc.blocked] ∧
    ∀ e, fineStep 1 lostWakeupState e = none := by
  refine ⟨by decide, by decide, rfl, rfl, rfl, rfl, ?_⟩
  intro e
  cases e with
  | worker id =>
    by_cases h : id = 1
    · subst h
      decide
    · have : ¬ (1 ≤ id ∧ id ≤ 1) := by omega
      simp [fineStep, this]
  | dispatcher => decide
  | shutdown => decide

end DungeonQueue
